import Mathlib

/-!
Verification of the regia request-execution core (`parser.go` / context file).

The development shallowly embeds the pieces of the source the claims are
about:

* `Regia.Chain` — the handler-chain executor: `Context.Next`, `Abort` /
  `AbortWith`, `start` / `recover`, `IsAborted`, `AbortHandler`.  The Go
  cursor `index` and `abortIndex` are `uint8`; they are modelled as `Nat`
  with an explicit `% 256` (`u8`).  Handlers are embedded as small programs
  over the operations they can perform on the context (`noop`, a re-entrant
  call to `Next`, `Abort`), and the executor is a fuel-indexed interpreter
  `run` whose loop mirrors the Go loop literally.  Two pieces of ghost
  instrumentation are added: `trace` records the cursor value at each
  handler invocation (to state "invoked exactly once, in order"), and
  `abortWrites` counts assignments to `abortIndex` (to state "set exactly
  once").  Neither influences control flow.
* `Regia.Dispatch` — `Parsers.Parse`, `Context.Data`, `Context.AddParser`.
  Concrete decoders and the validator are external collaborators, so they
  appear as function-valued fields.
* `Regia.Pool` — `Context.reset`.
* `Regia.Recov` — `Context.recover`, the selective panic catcher.
* `Regia.QueryM` — `Context.Query` memoization; the standard library's
  query-string parser is an external collaborator, passed as a parameter.
-/

namespace Regia

namespace Chain

/-- `uint8` truncation: Go's `uint8(x)` and all `uint8` arithmetic reduce
modulo 256. -/
def u8 (n : Nat) : Nat := n % 256

/-- The operations a handler body may perform on the context, as far as the
executor's control flow is concerned: do local work (`noop`), re-entrantly
call `Context.Next` (`nextA`), or call `Context.Abort` / `AbortWith`
(`abortA`). -/
inductive Act where
  | noop
  | nextA
  | abortA
deriving DecidableEq, Repr

/-- A handler (`HandleFunc`) is the sequence of executor-relevant operations
its body performs. -/
abbrev Handler := List Act

/-- `HandleFuncGroup`: the matched handler chain. -/
abbrev Group := List Handler

/-- The executor-relevant part of `Context`: the `uint8` cursor `index`, the
`uint8` `abortIndex`, plus ghost instrumentation (`abortWrites` counts
assignments to `abortIndex`; `trace` records the cursor value at each
handler invocation). -/
structure Ctx where
  index : Nat
  abortIndex : Nat
  abortWrites : Nat
  trace : List Nat
deriving DecidableEq, Repr

/-- `c.index++` in Go `uint8` arithmetic. -/
def bump (c : Ctx) : Ctx := { c with index := u8 (c.index + 1) }

/-- Ghost: record that the handler at the current cursor value is invoked. -/
def pushTrace (c : Ctx) : Ctx := { c with trace := c.trace ++ [c.index] }

/-- `Context.AbortWith`'s state effect: `c.abortIndex = c.index - 1` in
`uint8` arithmetic (then it panics with the exit value). -/
def doAbort (c : Ctx) : Ctx :=
  { c with abortIndex := u8 (c.index + 255), abortWrites := c.abortWrites + 1 }

/-- Outcome of running a piece of the executor: normal return, a
propagating `panic(exit)` raised by `AbortWith`, a propagating runtime
fault (slice index out of range), or fuel exhaustion (not a program
behaviour; theorems quantify it away). -/
inductive Res where
  | ok (c : Ctx)
  | abortPanic (c : Ctx)
  | crash (c : Ctx)
  | timeout
deriving DecidableEq, Repr

/-- What is currently being executed: a handler body (list of remaining
actions) or the `for` loop of `Context.Next`. -/
inductive Task where
  | acts (as : List Act)
  | loop

/-- Fuel-indexed interpreter for the executor.  The `.loop` case is Go's

    for c.index <= uint8(len(c.group)) {
        handle := c.group[c.index-1]
        handle(c)
        c.index++
    }

with `c.group[c.index-1]` faulting (`crash`) when out of range, and the
`.acts` cases run a handler body: `nextA` is the re-entrant
`c.index++; loop` of `Context.Next`, `abortA` is `AbortWith` (record the
abort position, then panic — the rest of the body and all enclosing frames
are discarded). -/
def run (g : Group) : Nat → Ctx → Task → Res
  | 0, _, _ => .timeout
  | _ + 1, c, .acts [] => .ok c
  | f + 1, c, .acts (.noop :: rest) => run g f c (.acts rest)
  | _ + 1, c, .acts (.abortA :: _) => .abortPanic (doAbort c)
  | f + 1, c, .acts (.nextA :: rest) =>
    match run g f (bump c) .loop with
    | .ok c2 => run g f c2 (.acts rest)
    | r => r
  | f + 1, c, .loop =>
    if c.index ≤ u8 g.length then
      match g.get? (u8 (c.index + 255)) with
      | none => .crash c
      | some h =>
        match run g f (pushTrace c) (.acts h) with
        | .ok c2 => run g f (bump c2) .loop
        | r => r
    else .ok c

/-- `Context.Next`: `c.index++` followed by the traversal loop. -/
def Next (g : Group) (fuel : Nat) (c : Ctx) : Res :=
  run g fuel (bump c) .loop

/-- `Context.start`: run `Next` under `defer c.recover()`.  `recover`
catches a panicking `Exit` value and invokes its `Exit` behaviour (the
engine's default abort behaviour does nothing); any other fault
propagates. -/
def start (g : Group) (fuel : Nat) (c : Ctx) : Res :=
  match Next g fuel c with
  | .abortPanic c2 => .ok c2
  | r => r

/-- `Context.IsAborted`: `c.abortIndex != 0`. -/
def IsAborted (c : Ctx) : Bool := c.abortIndex != 0

/-- `Context.AbortHandler`: `nil` when not aborted, else
`c.group[c.abortIndex]` (out-of-range is collapsed to `none`; no theorem
below exercises that corner). -/
def AbortHandler (g : Group) (c : Ctx) : Option Handler :=
  if c.abortIndex = 0 then none else g.get? c.abortIndex

/-- A handler body that never calls `Abort`. -/
def noAbort : List Act → Bool
  | [] => true
  | .abortA :: _ => false
  | _ :: r => noAbort r

/-- Number of re-entrant `Next` calls in a handler body. -/
def countNext : List Act → Nat
  | [] => 0
  | .nextA :: r => countNext r + 1
  | _ :: r => countNext r

/-- A handler body that calls `Abort` before any re-entrant `Next`. -/
def abortsFirst : List Act → Bool
  | .abortA :: _ => true
  | .noop :: r => abortsFirst r
  | _ => false

/-- Sum of `countNext` over `d` consecutive 1-based positions starting at
`i` (missing positions count 0). -/
def sumNextAux (g : Group) : Nat → Nat → Nat
  | 0, _ => 0
  | d + 1, i => countNext (g.getD (i - 1) []) + sumNextAux g d (i + 1)

/-- Total number of re-entrant `Next` calls in the handlers at 1-based
positions `i .. u8 g.length`. -/
def sumNextFrom (g : Group) (i : Nat) : Nat :=
  sumNextAux g (u8 g.length + 1 - i) i

end Chain

/-- Concrete two-handler chain whose first handler aborts, for claim C1. -/
def gEx1 : Chain.Group := [[Chain.Act.abortA], [Chain.Act.noop]]

/-- The chain used to witness claim C1's amended theorem. -/
def gEx1w : Chain.Group := [[Chain.Act.noop], [Chain.Act.abortA], [Chain.Act.noop]]

/-- Concrete one-handler chain whose handler re-entrantly calls `Next()`,
for claim C4. -/
def gEx4c : Chain.Group := [[Chain.Act.nextA]]

/-- The chain used to witness claim C4's amended theorem. -/
def gEx4w : Chain.Group := [[Chain.Act.noop], [Chain.Act.nextA]]

/-- The 256-handler chain used to witness claim C10's theorem. -/
def gEx10 : Chain.Group := List.replicate 256 []

namespace Dispatch

/-- The request metadata a parser's match predicate reads (primarily the
`Content-Type` header). -/
structure Req where
  contentType : String

/-- Errors flowing out of `Data`: the sentinel `ParseError{}` returned when
no parser matches, errors returned by a matched parser's decode, and errors
returned by the validator.  Decoders and the validator are external
collaborators, so their errors are abstracted by a code. -/
inductive Err where
  | ParseError
  | decodeErr (code : Nat)
  | validateErr (code : Nat)
deriving DecidableEq, Repr

/-- The `Parser` interface: `Match` decides whether this parser should
handle the request, `Parse` decodes the body into the destination (the
destination is abstracted by an identifier; `none` is a nil error). -/
structure Parser where
  Match : Req → Bool
  Parse : Req → Nat → Option Err

/-- `type Parsers []Parser`. -/
abbrev Parsers := List Parser

/-- `Parsers.Parse`: try each parser's `Match` in list order; the first
match has its `Parse` invoked and its result returned immediately; if none
matches, return `ParseError{}`. -/
def Parsers.Parse : Parsers → Req → Nat → Option Err
  | [], _, _ => some .ParseError
  | q :: rest, r, v =>
    match q.Match r with
    | true => q.Parse r v
    | false => Parsers.Parse rest r v

/-- The fields of `Context` that `Data` / `AddParser` touch: the
per-request parser list (`nil` modelled as `none`), the engine's
process-wide default list `Engine.ContextParser`, the validator, and the
request. -/
structure DCtx where
  parsers : Option Parsers
  engineParsers : Parsers
  Validator : Nat → Option Err
  req : Req

/-- Go's `append` on a possibly-`nil` slice: appending nothing to `nil`
stays `nil`; otherwise the result is non-`nil`. -/
def goAppend : Option Parsers → List Parser → Option Parsers
  | none, [] => none
  | none, p => some p
  | some xs, p => some (xs ++ p)

/-- `Context.AddParser`: `c.parsers = append(c.parsers, p...)`. -/
def AddParser (c : DCtx) (p : List Parser) : DCtx :=
  { c with parsers := goAppend c.parsers p }

/-- The parser list `Data` ends up using: the request's own list, or the
engine default when none was configured (`if c.parsers == nil`). -/
def effParsers (c : DCtx) : Parsers :=
  match c.parsers with
  | none => c.engineParsers
  | some ps => ps

/-- `Context.Data`: install the default parser list if none is configured,
dispatch the parse, and only on success invoke the validator; the first
error from either step is returned.  The updated context (Go mutates
`c.parsers` in place) is returned alongside. -/
def Data (c : DCtx) (v : Nat) : DCtx × Option Err :=
  let ps := effParsers c
  let c' := { c with parsers := some ps }
  match Parsers.Parse ps c.req v with
  | some e => (c', some e)
  | none => (c', c.Validator v)

end Dispatch

/-- A parser whose match predicate always fails (used in witnesses). -/
def pNever : Dispatch.Parser := ⟨fun _ => false, fun _ _ => some (.decodeErr 7)⟩

/-- A parser matching `application/json` whose decode succeeds. -/
def pJson : Dispatch.Parser :=
  ⟨fun r => r.contentType == "application/json", fun _ _ => none⟩

/-- A parser matching everything, with a distinctive decode error. -/
def pAny : Dispatch.Parser := ⟨fun _ => true, fun _ _ => some (.decodeErr 9)⟩

/-- A JSON request (used in witnesses). -/
def rqJson : Dispatch.Req := ⟨"application/json"⟩

/-- A plain-text request no built-in parser matches (used in witnesses). -/
def rqText : Dispatch.Req := ⟨"text/plain"⟩

/-- The context used in dispatch witnesses: no per-request list configured,
`pJson` as the engine default, a validator rejecting everything but
destination `0`. -/
def dEx : Dispatch.DCtx :=
  ⟨none, [pJson], fun n => if n == 0 then none else some (.validateErr 1), rqJson⟩

/-- `dEx` with a per-request list configured. -/
def dExSome : Dispatch.DCtx :=
  ⟨some [pAny], [pJson], fun _ => none, rqJson⟩

/-- `dEx` against a request nothing matches. -/
def dExText : Dispatch.DCtx := ⟨none, [pJson], fun _ => none, rqText⟩

/-- A context for claim C3's counterexample: no per-request parser list,
and an engine default (`pAny`) that matches and decodes every request. -/
def dC3 : Dispatch.DCtx := ⟨none, [⟨fun _ => true, fun _ _ => none⟩], fun _ => none, rqText⟩

namespace Pool

/-- Cached `url.Values` (query / form caches), abstracted. -/
abbrev QV := List (String × String)

/-- The per-request fields of `Context` that `reset` is responsible for
clearing before the object returns to the pool: the chain cursor, the abort
position, the per-request parser list, the route-matched flag, the two
caches and the pooled auxiliary key/value store (`contextValue`; `none`
models released-to-its-own-pool / `nil`). -/
structure PCtx where
  index : Nat
  abortIndex : Nat
  parsers : Option Dispatch.Parsers
  matched : Bool
  queryCache : Option QV
  formCache : Option QV
  contextValue : Option (List (String × String))

/-- `Context.reset`, field for field from the source: it zeroes `index`,
nils `Parsers`, clears `matched`, nils both caches and clears-and-releases
`contextValue` — and does not touch `abortIndex`. -/
def reset (c : PCtx) : PCtx :=
  { c with
    index := 0
    parsers := none
    matched := false
    queryCache := none
    formCache := none
    contextValue := none }

/-- `Context.IsAborted` as read on a pooled/reacquired context. -/
def IsAborted (c : PCtx) : Bool := c.abortIndex != 0

end Pool

/-- A context as it looks at the end of a request that was aborted at chain
position 2 (`abortIndex = 1`), with caches and auxiliary values populated. -/
def dirtyCtx : Pool.PCtx :=
  ⟨5, 1, some [], true, some [("a", "1")], some [("b", "2")], some [("k", "v")]⟩

namespace Recov

/-- A value carried by a panic: either the distinguished `Exit` signal
(carrying its `Exit(c)` behaviour) or any other unwound value. -/
inductive PanicVal (St : Type) where
  | exitSig (behavior : St → St)
  | otherVal (v : Nat)

/-- What `Context.recover` does with the request: nothing panicked, the
panic was consumed (its Exit behaviour ran on the state), or the value was
re-raised and propagates past the request boundary. -/
inductive RecResult (St : Type) where
  | noPanic (c : St)
  | consumed (c : St)
  | repanicked (v : PanicVal St)

/-- `Context.recover`: `recover()` yields the unwound value (or `none`);
an `Exit` value has `e.Exit(c)` invoked and is consumed; any other value is
re-panicked unchanged (`panic(rec)`). -/
def recoverFn {St : Type} (c : St) : Option (PanicVal St) → RecResult St
  | none => .noPanic c
  | some (.exitSig f) => .consumed (f c)
  | some (.otherVal v) => .repanicked (.otherVal v)

end Recov

namespace QueryM

/-- Parsed `url.Values`, abstracted. -/
abbrev QV := List (String × String)

/-- The fields `Context.Query` touches: the request's raw query string and
the per-request cache. -/
structure QCtx where
  rawQuery : String
  queryCache : Option QV

/-- `Context.Query`: on the first call (`queryCache == nil`) parse the raw
query — `parse` stands for the standard library's `URL.Query()`, an
external collaborator — and cache the result; afterwards return the cache.
Returns the value and the updated context. -/
def Query (parse : String → QV) (c : QCtx) : QV × QCtx :=
  match c.queryCache with
  | none =>
    let qv := parse c.rawQuery
    (qv, { c with queryCache := some qv })
  | some qv => (qv, c)

/-- Mutating the underlying raw query string between calls. -/
def setRawQuery (c : QCtx) (s : String) : QCtx := { c with rawQuery := s }

end QueryM

/-- A stand-in for the stdlib query-string parser, used in witnesses. -/
def parseEx : String → QueryM.QV := fun s => [(s, "parsed")]

namespace Chain

theorem u8_le_255 (n : Nat) : u8 n ≤ 255 := by
  have : n % 256 < 256 := Nat.mod_lt _ (by omega)
  simpa [u8] using Nat.lt_succ_iff.mp (by omega)

theorem u8_eq_of_le (n : Nat) (h : n ≤ 255) : u8 n = n := by
  simp only [u8]; omega

theorem u8_le_self (n : Nat) : u8 n ≤ n := Nat.mod_le _ _

theorem u8_pred (p : Nat) (h1 : 1 ≤ p) (h2 : p ≤ 256) :
    u8 (p + 255) = p - 1 := by
  simp only [u8]; omega

theorem run_zero (g : Group) (c : Ctx) (t : Task) :
    run g 0 c t = .timeout := rfl

theorem run_acts_nil (g : Group) (f : Nat) (c : Ctx) :
    run g (f + 1) c (.acts []) = .ok c := rfl

theorem run_acts_noop (g : Group) (f : Nat) (c : Ctx) (r : List Act) :
    run g (f + 1) c (.acts (.noop :: r)) = run g f c (.acts r) := rfl

theorem run_acts_abort (g : Group) (f : Nat) (c : Ctx) (r : List Act) :
    run g (f + 1) c (.acts (.abortA :: r)) = .abortPanic (doAbort c) := rfl

theorem run_acts_next (g : Group) (f : Nat) (c : Ctx) (r : List Act) :
    run g (f + 1) c (.acts (.nextA :: r)) =
      match run g f (bump c) .loop with
      | .ok c2 => run g f c2 (.acts r)
      | r2 => r2 := rfl

theorem run_loop_exit (g : Group) (f : Nat) (c : Ctx)
    (h : ¬ c.index ≤ u8 g.length) : run g (f + 1) c .loop = .ok c := by
  simp [run, h]

theorem run_loop_enter (g : Group) (f : Nat) (c : Ctx)
    (h : c.index ≤ u8 g.length) :
    run g (f + 1) c .loop =
      match g.get? (u8 (c.index + 255)) with
      | none => .crash c
      | some hd =>
        match run g f (pushTrace c) (.acts hd) with
        | .ok c2 => run g f (bump c2) .loop
        | r2 => r2 := by
  simp [run, h]

/-- One extra unit of fuel does not change a result other than `timeout`. -/
theorem run_mono_succ (g : Group) :
    ∀ f c t, run g f c t ≠ .timeout → run g (f + 1) c t = run g f c t := by
  intro f
  induction f with
  | zero => intro c t h; exact absurd (run_zero g c t) h
  | succ f ih =>
    intro c t h
    match t with
    | .acts [] => rfl
    | .acts (.noop :: r) =>
      rw [run_acts_noop, run_acts_noop]
      exact ih c (.acts r) (by rwa [run_acts_noop] at h)
    | .acts (.abortA :: r) => rfl
    | .acts (.nextA :: r) =>
      rw [run_acts_next, run_acts_next]
      rw [run_acts_next] at h
      have hl : run g f (bump c) .loop ≠ .timeout := by
        intro he; rw [he] at h; exact h rfl
      rw [ih (bump c) .loop hl]
      cases hres : run g f (bump c) .loop with
      | ok c2 =>
        rw [hres] at h
        exact ih c2 (.acts r) h
      | abortPanic c2 => rfl
      | crash c2 => rfl
      | timeout => exact absurd hres hl
    | .loop =>
      by_cases hc : c.index ≤ u8 g.length
      · rw [run_loop_enter g (f + 1) c hc, run_loop_enter g f c hc]
        rw [run_loop_enter g f c hc] at h
        cases hget : g.get? (u8 (c.index + 255)) with
        | none => simp only [hget]
        | some hd =>
          simp only [hget] at h ⊢
          have ha : run g f (pushTrace c) (.acts hd) ≠ .timeout := by
            intro he; simp only [he] at h; exact h rfl
          rw [ih (pushTrace c) (.acts hd) ha]
          cases hres : run g f (pushTrace c) (.acts hd) with
          | ok c2 =>
            simp only [hres] at h ⊢
            exact ih (bump c2) .loop h
          | abortPanic c2 => simp only [hres]
          | crash c2 => simp only [hres]
          | timeout => exact absurd hres ha
      · rw [run_loop_exit g (f + 1) c hc, run_loop_exit g f c hc]

/-- Fuel monotonicity: a result other than `timeout` is stable under more
fuel. -/
theorem run_mono (g : Group) {f f' : Nat} (hle : f ≤ f') {c : Ctx} {t : Task}
    (h : run g f c t ≠ .timeout) : run g f' c t = run g f c t := by
  induction f' with
  | zero =>
    have : f = 0 := Nat.le_zero.mp hle
    subst this; rfl
  | succ f' ih =>
    rcases Nat.lt_or_ge f (f' + 1) with hlt | hge
    · have hle' : f ≤ f' := Nat.lt_succ_iff.mp hlt
      have heq := ih hle'
      rw [← heq] at h ⊢
      exact run_mono_succ g f' c t h
    · have : f = f' + 1 := Nat.le_antisymm hle hge
      subst this; rfl

/-- Bookkeeping invariant: a normal or faulting return leaves `abortIndex`
and the ghost write counter untouched; a propagating abort panic accounts
for exactly one write to `abortIndex`. -/
theorem run_abort_inv (g : Group) :
    ∀ f c t,
      (∀ c', run g f c t = .ok c' →
        c'.abortIndex = c.abortIndex ∧ c'.abortWrites = c.abortWrites) ∧
      (∀ c', run g f c t = .abortPanic c' →
        c'.abortWrites = c.abortWrites + 1) ∧
      (∀ c', run g f c t = .crash c' →
        c'.abortIndex = c.abortIndex ∧ c'.abortWrites = c.abortWrites) := by
  intro f
  induction f with
  | zero =>
    intro c t
    refine ⟨?_, ?_, ?_⟩ <;> intro c' h <;> exact absurd (run_zero g c t ▸ h) (by simp)
  | succ f ih =>
    intro c t
    match t with
    | .acts [] =>
      refine ⟨?_, ?_, ?_⟩ <;> intro c' h <;> rw [run_acts_nil] at h
      · cases h; exact ⟨rfl, rfl⟩
      · cases h
      · cases h
    | .acts (.noop :: r) =>
      have := ih c (.acts r)
      refine ⟨?_, ?_, ?_⟩ <;> intro c' h <;> rw [run_acts_noop] at h
      · exact this.1 c' h
      · exact this.2.1 c' h
      · exact this.2.2 c' h
    | .acts (.abortA :: r) =>
      refine ⟨?_, ?_, ?_⟩ <;> intro c' h <;> rw [run_acts_abort] at h
      · cases h
      · cases h; simp [doAbort]
      · cases h
    | .acts (.nextA :: r) =>
      refine ⟨?_, ?_, ?_⟩ <;> intro c' h <;> rw [run_acts_next] at h
      · cases hres : run g f (bump c) .loop with
        | ok c2 =>
          simp only [hres] at h
          have h1 := (ih (bump c) .loop).1 c2 hres
          have h2 := (ih c2 (.acts r)).1 c' h
          simp [bump] at h1
          exact ⟨h2.1.trans h1.1, h2.2.trans h1.2⟩
        | abortPanic c2 => simp only [hres] at h; cases h
        | crash c2 => simp only [hres] at h; cases h
        | timeout => simp only [hres] at h; cases h
      · cases hres : run g f (bump c) .loop with
        | ok c2 =>
          simp only [hres] at h
          have h1 := (ih (bump c) .loop).1 c2 hres
          have h2 := (ih c2 (.acts r)).2.1 c' h
          simp [bump] at h1
          rw [h2, h1.2]
        | abortPanic c2 =>
          simp only [hres] at h
          cases h
          have := (ih (bump c) .loop).2.1 c' hres
          simpa [bump] using this
        | crash c2 => simp only [hres] at h; cases h
        | timeout => simp only [hres] at h; cases h
      · cases hres : run g f (bump c) .loop with
        | ok c2 =>
          simp only [hres] at h
          have h1 := (ih (bump c) .loop).1 c2 hres
          have h2 := (ih c2 (.acts r)).2.2 c' h
          simp [bump] at h1
          exact ⟨h2.1.trans h1.1, h2.2.trans h1.2⟩
        | abortPanic c2 => simp only [hres] at h; cases h
        | crash c2 =>
          simp only [hres] at h
          cases h
          have := (ih (bump c) .loop).2.2 c' hres
          simpa [bump] using this
        | timeout => simp only [hres] at h; cases h
    | .loop =>
      by_cases hc : c.index ≤ u8 g.length
      · refine ⟨?_, ?_, ?_⟩ <;> intro c' h <;> rw [run_loop_enter g f c hc] at h
        · cases hget : g.get? (u8 (c.index + 255)) with
          | none => simp only [hget] at h; cases h
          | some hd =>
            simp only [hget] at h
            cases hres : run g f (pushTrace c) (.acts hd) with
            | ok c2 =>
              simp only [hres] at h
              have h1 := (ih (pushTrace c) (.acts hd)).1 c2 hres
              have h2 := (ih (bump c2) .loop).1 c' h
              simp [pushTrace] at h1
              simp [bump] at h2
              exact ⟨h2.1.trans h1.1, h2.2.trans h1.2⟩
            | abortPanic c2 => simp only [hres] at h; cases h
            | crash c2 => simp only [hres] at h; cases h
            | timeout => simp only [hres] at h; cases h
        · cases hget : g.get? (u8 (c.index + 255)) with
          | none => simp only [hget] at h; cases h
          | some hd =>
            simp only [hget] at h
            cases hres : run g f (pushTrace c) (.acts hd) with
            | ok c2 =>
              simp only [hres] at h
              have hw := (ih (bump c2) .loop).2.1 c' h
              have h1 := (ih (pushTrace c) (.acts hd)).1 c2 hres
              simp [pushTrace] at h1
              simp [bump] at hw
              rw [hw, h1.2]
            | abortPanic c2 =>
              simp only [hres] at h
              cases h
              have := (ih (pushTrace c) (.acts hd)).2.1 c' hres
              simpa [pushTrace] using this
            | crash c2 => simp only [hres] at h; cases h
            | timeout => simp only [hres] at h; cases h
        · cases hget : g.get? (u8 (c.index + 255)) with
          | none => simp only [hget] at h; cases h; exact ⟨rfl, rfl⟩
          | some hd =>
            simp only [hget] at h
            cases hres : run g f (pushTrace c) (.acts hd) with
            | ok c2 =>
              simp only [hres] at h
              have h1 := (ih (pushTrace c) (.acts hd)).1 c2 hres
              have h2 := (ih (bump c2) .loop).2.2 c' h
              simp [pushTrace] at h1
              simp [bump] at h2
              exact ⟨h2.1.trans h1.1, h2.2.trans h1.2⟩
            | abortPanic c2 => simp only [hres] at h; cases h
            | crash c2 =>
              simp only [hres] at h
              cases h
              have := (ih (pushTrace c) (.acts hd)).2.2 c' hres
              simpa [pushTrace] using this
            | timeout => simp only [hres] at h; cases h
      · refine ⟨?_, ?_, ?_⟩ <;> intro c' h <;> rw [run_loop_exit g f c hc] at h
        · cases h; exact ⟨rfl, rfl⟩
        · cases h
        · cases h

theorem sumNextAux_split (g : Group) :
    ∀ a b i, sumNextAux g (a + b) i = sumNextAux g a i + sumNextAux g b (i + a) := by
  intro a
  induction a with
  | zero => intro b i; simp [sumNextAux]
  | succ a ih =>
    intro b i
    have h1 : a + 1 + b = (a + b) + 1 := by omega
    rw [h1]
    show countNext (g.getD (i - 1) []) + sumNextAux g (a + b) (i + 1) = _
    rw [ih b (i + 1)]
    have h2 : i + 1 + a = i + (a + 1) := by omega
    rw [h2]
    show _ = countNext (g.getD (i - 1) []) + sumNextAux g a (i + 1) + _
    omega

theorem sumNextFrom_succ (g : Group) (i : Nat) (_h1 : 1 ≤ i)
    (h2 : i ≤ u8 g.length) :
    sumNextFrom g i = countNext (g.getD (i - 1) []) + sumNextFrom g (i + 1) := by
  unfold sumNextFrom
  have ha : u8 g.length + 1 - i = (u8 g.length - i) + 1 := by omega
  have hb : u8 g.length + 1 - (i + 1) = u8 g.length - i := by omega
  rw [ha, hb]
  rfl

theorem sumNextFrom_le (g : Group) (i : Nat) (_h1 : 1 ≤ i) :
    sumNextFrom g i ≤ sumNextFrom g 1 := by
  by_cases h : i ≤ u8 g.length + 1
  · unfold sumNextFrom
    have ha : u8 g.length + 1 - 1 = (i - 1) + (u8 g.length + 1 - i) := by omega
    rw [ha, sumNextAux_split]
    have hb : 1 + (i - 1) = i := by omega
    rw [hb]
    omega
  · have ha : u8 g.length + 1 - i = 0 := by omega
    unfold sumNextFrom
    rw [ha]
    show 0 ≤ _
    exact Nat.zero_le _

theorem sumNextFrom_past (g : Group) (i : Nat) (h : u8 g.length < i) :
    sumNextFrom g i = 0 := by
  unfold sumNextFrom
  have : u8 g.length + 1 - i = 0 := by omega
  rw [this]
  rfl

/-- Running a handler body containing no abort when the cursor is already
past the end of the chain: all work is local except re-entrant `Next`
calls, each of which only advances the cursor by one and exits the loop
immediately. -/
theorem run_acts_past (g : Group) :
    ∀ as, noAbort as = true → ∀ c : Ctx, u8 g.length < c.index →
      c.index + countNext as ≤ 255 →
      ∃ f, run g f c (.acts as) = .ok { c with index := c.index + countNext as } := by
  intro as
  induction as with
  | nil =>
    intro _ c _ _
    refine ⟨1, ?_⟩
    rw [run_acts_nil]
    simp [countNext]
  | cons a r ih =>
    match a with
    | .abortA => intro hna; simp [noAbort] at hna
    | .noop =>
      intro hna c hpast hbound
      have hna' : noAbort r = true := by simpa [noAbort] using hna
      have hcnt : countNext (Act.noop :: r) = countNext r := rfl
      rw [hcnt] at hbound ⊢
      obtain ⟨f, hf⟩ := ih hna' c hpast hbound
      exact ⟨f + 1, by rw [run_acts_noop]; exact hf⟩
    | .nextA =>
      intro hna c hpast hbound
      have hna' : noAbort r = true := by simpa [noAbort] using hna
      have hcnt : countNext (Act.nextA :: r) = countNext r + 1 := rfl
      rw [hcnt] at hbound ⊢
      have hidx : u8 (c.index + 1) = c.index + 1 := u8_eq_of_le _ (by omega)
      have hb : bump c = { c with index := c.index + 1 } := by
        simp [bump, hidx]
      obtain ⟨f, hf⟩ := ih hna' { c with index := c.index + 1 } (by simpa using by omega)
        (by simpa using by omega)
      have hfne : f ≠ 0 := by
        intro h0; subst h0; rw [run_zero] at hf; cases hf
      obtain ⟨f', rfl⟩ : ∃ f', f = f' + 1 := ⟨f - 1, by omega⟩
      refine ⟨f' + 2, ?_⟩
      rw [run_acts_next]
      have hloop : run g (f' + 1) (bump c) .loop = .ok { c with index := c.index + 1 } := by
        rw [hb]
        exact run_loop_exit g f' _ (by simpa using by omega)
      rw [hloop]
      show run g (f' + 1) _ (.acts r) = _
      rw [hf]
      have : c.index + 1 + countNext r = c.index + (countNext r + 1) := by omega
      simp [this]

/-- A no-abort handler body with no re-entrant `Next` leaves the context
unchanged. -/
theorem run_acts_none (g : Group) :
    ∀ as, noAbort as = true → countNext as = 0 → ∀ c : Ctx,
      ∃ f, run g f c (.acts as) = .ok c := by
  intro as
  induction as with
  | nil => intro _ _ c; exact ⟨1, rfl⟩
  | cons a r ih =>
    match a with
    | .abortA => intro hna; simp [noAbort] at hna
    | .nextA => intro _ hcnt; simp [countNext] at hcnt
    | .noop =>
      intro hna hcnt c
      have hna' : noAbort r = true := by simpa [noAbort] using hna
      have hcnt' : countNext r = 0 := by simpa [countNext] using hcnt
      obtain ⟨f, hf⟩ := ih hna' hcnt' c
      exact ⟨f + 1, by rw [run_acts_noop]; exact hf⟩

/-- A handler body that aborts before any re-entrant `Next` records the
abort position (`index - 1` in `uint8` arithmetic) and panics: nothing else
of the body runs. -/
theorem run_acts_abortsFirst (g : Group) :
    ∀ as, abortsFirst as = true → ∀ c : Ctx,
      ∃ f, run g f c (.acts as) = .abortPanic (doAbort c) := by
  intro as
  induction as with
  | nil => intro h; simp [abortsFirst] at h
  | cons a r ih =>
    match a with
    | .abortA => intro _ c; exact ⟨1, rfl⟩
    | .nextA => intro h; simp [abortsFirst] at h
    | .noop =>
      intro h c
      have h' : abortsFirst r = true := by simpa [abortsFirst] using h
      obtain ⟨f, hf⟩ := ih h' c
      exact ⟨f + 1, by rw [run_acts_noop]; exact hf⟩

/-- A no-abort handler body at cursor position `p` that makes at least one
re-entrant `Next` call: the first such call drives the loop over the rest
of the chain (hypothesis `LP` characterizes that loop), and every further
re-entrant call just advances the cursor by one. -/
theorem run_acts_reentrant (g : Group) :
    ∀ as, noAbort as = true → 1 ≤ countNext as →
      ∀ (p : Nat) (c : Ctx), c.index = p → p + 1 ≤ 255 →
      u8 g.length + 1 + sumNextFrom g (p + 1) + (countNext as - 1) ≤ 255 →
      (∀ c2 : Ctx, c2.index = p + 1 →
        ∃ f, run g f c2 .loop = .ok { c2 with
          index := u8 g.length + 1 + sumNextFrom g (p + 1),
          trace := c2.trace ++ List.range' (p + 1) (u8 g.length + 1 - (p + 1)) }) →
      ∃ f, run g f c (.acts as) = .ok { c with
        index := u8 g.length + 1 + sumNextFrom g (p + 1) + (countNext as - 1),
        trace := c.trace ++ List.range' (p + 1) (u8 g.length + 1 - (p + 1)) } := by
  intro as
  induction as with
  | nil => intro _ hcnt; simp [countNext] at hcnt
  | cons a r ih =>
    match a with
    | .abortA => intro hna; simp [noAbort] at hna
    | .noop =>
      intro hna hcnt p c hc hp hbound LP
      have hna' : noAbort r = true := by simpa [noAbort] using hna
      have hcnt' : countNext (Act.noop :: r) = countNext r := rfl
      rw [hcnt'] at hcnt hbound ⊢
      obtain ⟨f, hf⟩ := ih hna' hcnt p c hc hp hbound LP
      exact ⟨f + 1, by rw [run_acts_noop]; exact hf⟩
    | .nextA =>
      intro hna hcnt p c hc hp hbound LP
      have hna' : noAbort r = true := by simpa [noAbort] using hna
      have hcnt' : countNext (Act.nextA :: r) = countNext r + 1 := rfl
      rw [hcnt'] at hbound ⊢
      have hidx : u8 (c.index + 1) = p + 1 := by rw [hc]; exact u8_eq_of_le _ hp
      have hbmp : (bump c).index = p + 1 := by simp [bump, hidx]
      obtain ⟨f1, h1⟩ := LP (bump c) hbmp
      set cMid : Ctx := { bump c with
        index := u8 g.length + 1 + sumNextFrom g (p + 1),
        trace := (bump c).trace ++ List.range' (p + 1) (u8 g.length + 1 - (p + 1)) } with hcMid
      have hMidIdx : cMid.index = u8 g.length + 1 + sumNextFrom g (p + 1) := rfl
      have hMidPast : u8 g.length < cMid.index := by rw [hMidIdx]; omega
      obtain ⟨f2, h2⟩ := run_acts_past g r hna' cMid hMidPast (by rw [hMidIdx]; omega)
      have hne1 : run g f1 (bump c) .loop ≠ .timeout := by rw [h1]; simp
      have hne2 : run g f2 cMid (.acts r) ≠ .timeout := by rw [h2]; simp
      refine ⟨max f1 f2 + 1, ?_⟩
      rw [run_acts_next]
      rw [run_mono g (Nat.le_max_left f1 f2) hne1, h1]
      show run g (max f1 f2) cMid (.acts r) = _
      rw [run_mono g (Nat.le_max_right f1 f2) hne2, h2]
      show Res.ok { cMid with index := cMid.index + countNext r } = _
      rw [hcMid]
      simp [bump]

theorem range'_cons (s n : Nat) :
    List.range' s (n + 1) = s :: List.range' (s + 1) n := rfl

/-- Characterization of the traversal loop over a chain whose (truncated)
handlers never abort: starting the loop at 1-based cursor position `i`, it
invokes exactly the handlers at positions `i .. u8 g.length`, in order, each
exactly once, and leaves the cursor at `u8 g.length + 1` plus the number of
re-entrant `Next` calls those handlers perform.  `Hbound` keeps the final
cursor value below the `uint8` wrap. -/
theorem run_loop_ok (g : Group)
    (Hall : ∀ j, j < u8 g.length → noAbort (g.getD j []) = true)
    (Hbound : u8 g.length + 1 + sumNextFrom g 1 ≤ 255) :
    ∀ i, 1 ≤ i → i ≤ u8 g.length + 1 → ∀ c : Ctx, c.index = i →
      ∃ f, run g f c .loop = .ok { c with
        index := u8 g.length + 1 + sumNextFrom g i,
        trace := c.trace ++ List.range' i (u8 g.length + 1 - i) } := by
  suffices H : ∀ d i, u8 g.length + 1 - i = d → 1 ≤ i → i ≤ u8 g.length + 1 →
      ∀ c : Ctx, c.index = i →
      ∃ f, run g f c .loop = .ok { c with
        index := u8 g.length + 1 + sumNextFrom g i,
        trace := c.trace ++ List.range' i (u8 g.length + 1 - i) } by
    intro i h1 h2 c hc
    exact H _ i rfl h1 h2 c hc
  intro d
  induction d with
  | zero =>
    intro i hd h1 h2 c hc
    have hS : sumNextFrom g i = 0 := sumNextFrom_past g i (by omega)
    refine ⟨1, ?_⟩
    rw [run_loop_exit g 0 c (by omega)]
    rw [hS, hd]
    have hidx : u8 g.length + 1 + 0 = c.index := by omega
    rw [hidx]
    simp
  | succ d ih =>
    intro i hd h1 h2 c hc
    have hB254 : u8 g.length ≤ 254 := by omega
    have hiB : i ≤ u8 g.length := by omega
    have hlt : i - 1 < g.length := by
      have := u8_le_self g.length
      omega
    have hpred : u8 (c.index + 255) = i - 1 := by
      rw [hc]; exact u8_pred i h1 (by omega)
    have hget : g.get? (i - 1) = some (g.get ⟨i - 1, hlt⟩) := List.get?_eq_get hlt
    have hgetD : g.getD (i - 1) [] = g.get ⟨i - 1, hlt⟩ := List.getD_eq_get g [] hlt
    have hna : noAbort (g.get ⟨i - 1, hlt⟩) = true := by
      rw [← hgetD]; exact Hall (i - 1) (by omega)
    have hSrec : sumNextFrom g i =
        countNext (g.get ⟨i - 1, hlt⟩) + sumNextFrom g (i + 1) := by
      rw [sumNextFrom_succ g i h1 hiB, hgetD]
    have hSle : sumNextFrom g i ≤ sumNextFrom g 1 := sumNextFrom_le g i h1
    have hptidx : (pushTrace c).index = i := by simp [pushTrace, hc]
    have hrange : List.range' i (u8 g.length + 1 - i) =
        i :: List.range' (i + 1) (u8 g.length + 1 - (i + 1)) := by
      have hn : u8 g.length + 1 - i = (u8 g.length + 1 - (i + 1)) + 1 := by omega
      rw [hn, range'_cons]
    cases hcnt : countNext (g.get ⟨i - 1, hlt⟩) with
    | zero =>
      obtain ⟨f1, hf1⟩ := run_acts_none g _ hna hcnt (pushTrace c)
      have hbidx : (bump (pushTrace c)).index = i + 1 := by
        simp [bump, hptidx, u8_eq_of_le (i + 1) (by omega)]
      obtain ⟨f2, hf2⟩ :=
        ih (i + 1) (by omega) (by omega) (by omega) (bump (pushTrace c)) hbidx
      have hne1 : run g f1 (pushTrace c) (.acts (g.get ⟨i - 1, hlt⟩)) ≠ .timeout := by
        rw [hf1]; simp
      have hne2 : run g f2 (bump (pushTrace c)) .loop ≠ .timeout := by
        rw [hf2]; simp
      refine ⟨max f1 f2 + 1, ?_⟩
      rw [run_loop_enter g (max f1 f2) c (by omega)]
      rw [hpred]
      simp only [hget]
      rw [run_mono g (Nat.le_max_left f1 f2) hne1]
      simp only [hf1]
      rw [run_mono g (Nat.le_max_right f1 f2) hne2, hf2]
      rw [hrange, hSrec, hcnt]
      simp [bump, pushTrace, hc]
    | succ n =>
      have hcnt1 : 1 ≤ countNext (g.get ⟨i - 1, hlt⟩) := by omega
      have hbound2 : u8 g.length + 1 + sumNextFrom g (i + 1) +
          (countNext (g.get ⟨i - 1, hlt⟩) - 1) ≤ 255 := by omega
      obtain ⟨f1, hf1⟩ := run_acts_reentrant g _ hna hcnt1 i (pushTrace c) hptidx
        (by omega) hbound2
        (fun c2 hc2 => ih (i + 1) (by omega) (by omega) (by omega) c2 hc2)
      have hne1 : run g f1 (pushTrace c) (.acts (g.get ⟨i - 1, hlt⟩)) ≠ .timeout := by
        rw [hf1]; simp
      refine ⟨f1 + 2, ?_⟩
      rw [run_loop_enter g (f1 + 1) c (by omega)]
      rw [hpred]
      simp only [hget]
      rw [run_mono g (Nat.le_succ f1) hne1]
      simp only [hf1]
      have hXsucc : u8 g.length + 1 + sumNextFrom g (i + 1) +
          (countNext (g.get ⟨i - 1, hlt⟩) - 1) + 1 =
          u8 g.length + 1 + sumNextFrom g i := by omega
      have hexit : ¬ (u8 (u8 g.length + 1 + sumNextFrom g (i + 1) +
          (countNext (g.get ⟨i - 1, hlt⟩) - 1) + 1) ≤ u8 g.length) := by
        rw [hXsucc, u8_eq_of_le _ (by omega)]
        omega
      rw [run_loop_exit g f1 _ (by simpa [bump] using hexit)]
      rw [hrange]
      have hfin : u8 (u8 g.length + 1 + sumNextFrom g (i + 1) +
          (countNext (g.get ⟨i - 1, hlt⟩) - 1) + 1) =
          u8 g.length + 1 + sumNextFrom g i := by
        rw [hXsucc]; exact u8_eq_of_le _ (by omega)
      simp [bump, pushTrace, hc, hXsucc]
      exact hfin

/-- A no-abort handler body at position `p` whose first re-entrant `Next`
call runs into a downstream abort (hypothesis `LPA`): the abort panic
propagates out of the body at once, discarding the rest of the body. -/
theorem run_acts_abortVia (g : Group) (k : Nat) :
    ∀ as, noAbort as = true → 1 ≤ countNext as →
      ∀ (p : Nat) (c : Ctx), c.index = p → p + 1 ≤ 255 →
      (∀ c2 : Ctx, c2.index = p + 1 →
        ∃ f, run g f c2 .loop = .abortPanic { c2 with
          index := k, abortIndex := u8 (k + 255),
          abortWrites := c2.abortWrites + 1,
          trace := c2.trace ++ List.range' (p + 1) (k + 1 - (p + 1)) }) →
      ∃ f, run g f c (.acts as) = .abortPanic { c with
        index := k, abortIndex := u8 (k + 255),
        abortWrites := c.abortWrites + 1,
        trace := c.trace ++ List.range' (p + 1) (k + 1 - (p + 1)) } := by
  intro as
  induction as with
  | nil => intro _ hcnt; simp [countNext] at hcnt
  | cons a r ih =>
    match a with
    | .abortA => intro hna; simp [noAbort] at hna
    | .noop =>
      intro hna hcnt p c hc hp LPA
      have hna' : noAbort r = true := by simpa [noAbort] using hna
      have hcnt' : countNext (Act.noop :: r) = countNext r := rfl
      rw [hcnt'] at hcnt
      obtain ⟨f, hf⟩ := ih hna' hcnt p c hc hp LPA
      exact ⟨f + 1, by rw [run_acts_noop]; exact hf⟩
    | .nextA =>
      intro hna hcnt p c hc hp LPA
      have hidx : u8 (c.index + 1) = p + 1 := by rw [hc]; exact u8_eq_of_le _ hp
      have hbmp : (bump c).index = p + 1 := by simp [bump, hidx]
      obtain ⟨f1, h1⟩ := LPA (bump c) hbmp
      refine ⟨f1 + 1, ?_⟩
      rw [run_acts_next]
      simp only [h1]
      simp [bump]

/-- Characterization of the traversal loop when the handler at 1-based
position `k` aborts (before any of its own re-entrant `Next` calls) and all
handlers before it never abort: starting the loop at position `i ≤ k`, the
handlers at positions `i .. k` run in order, each exactly once, the abort
position `k - 1` is recorded, and the panic propagates with the cursor
stopped at `k`; no handler past `k` is ever invoked. -/
theorem run_loop_abort (g : Group) (k : Nat)
    (HkB : k ≤ u8 g.length)
    (Hpre : ∀ j, j < k - 1 → noAbort (g.getD j []) = true)
    (Habort : abortsFirst (g.getD (k - 1) []) = true) :
    ∀ i, 1 ≤ i → i ≤ k → ∀ c : Ctx, c.index = i →
      ∃ f, run g f c .loop = .abortPanic { c with
        index := k,
        abortIndex := u8 (k + 255),
        abortWrites := c.abortWrites + 1,
        trace := c.trace ++ List.range' i (k + 1 - i) } := by
  suffices H : ∀ d i, k - i = d → 1 ≤ i → i ≤ k →
      ∀ c : Ctx, c.index = i →
      ∃ f, run g f c .loop = .abortPanic { c with
        index := k,
        abortIndex := u8 (k + 255),
        abortWrites := c.abortWrites + 1,
        trace := c.trace ++ List.range' i (k + 1 - i) } by
    intro i h1 h2 c hc
    exact H _ i rfl h1 h2 c hc
  intro d
  induction d with
  | zero =>
    intro i hd h1 h2 c hc
    have hik : i = k := by omega
    subst hik
    have hB255 : u8 g.length ≤ 255 := u8_le_255 _
    have hlt : i - 1 < g.length := by
      have := u8_le_self g.length
      omega
    have hpred : u8 (c.index + 255) = i - 1 := by
      rw [hc]; exact u8_pred i h1 (by omega)
    have hget : g.get? (i - 1) = some (g.get ⟨i - 1, hlt⟩) := List.get?_eq_get hlt
    have hgetD : g.getD (i - 1) [] = g.get ⟨i - 1, hlt⟩ := List.getD_eq_get g [] hlt
    have hab : abortsFirst (g.get ⟨i - 1, hlt⟩) = true := by rw [← hgetD]; exact Habort
    obtain ⟨f1, hf1⟩ := run_acts_abortsFirst g _ hab (pushTrace c)
    refine ⟨f1 + 1, ?_⟩
    rw [run_loop_enter g f1 c (by omega)]
    rw [hpred]
    simp only [hget]
    simp only [hf1]
    have hr1 : i + 1 - i = 1 := by omega
    rw [hr1]
    have hrone : List.range' i 1 = [i] := rfl
    simp [doAbort, pushTrace, hc, hrone]
  | succ d ih =>
    intro i hd h1 h2 c hc
    have hik : i < k := by omega
    have hB255 : u8 g.length ≤ 255 := u8_le_255 _
    have hlt : i - 1 < g.length := by
      have := u8_le_self g.length
      omega
    have hpred : u8 (c.index + 255) = i - 1 := by
      rw [hc]; exact u8_pred i h1 (by omega)
    have hget : g.get? (i - 1) = some (g.get ⟨i - 1, hlt⟩) := List.get?_eq_get hlt
    have hgetD : g.getD (i - 1) [] = g.get ⟨i - 1, hlt⟩ := List.getD_eq_get g [] hlt
    have hna : noAbort (g.get ⟨i - 1, hlt⟩) = true := by
      rw [← hgetD]; exact Hpre (i - 1) (by omega)
    have hptidx : (pushTrace c).index = i := by simp [pushTrace, hc]
    have hrange : List.range' i (k + 1 - i) =
        i :: List.range' (i + 1) (k + 1 - (i + 1)) := by
      have hn : k + 1 - i = (k + 1 - (i + 1)) + 1 := by omega
      rw [hn, range'_cons]
    cases hcnt : countNext (g.get ⟨i - 1, hlt⟩) with
    | zero =>
      obtain ⟨f1, hf1⟩ := run_acts_none g _ hna hcnt (pushTrace c)
      have hbidx : (bump (pushTrace c)).index = i + 1 := by
        simp [bump, hptidx, u8_eq_of_le (i + 1) (by omega)]
      obtain ⟨f2, hf2⟩ :=
        ih (i + 1) (by omega) (by omega) (by omega) (bump (pushTrace c)) hbidx
      have hne1 : run g f1 (pushTrace c) (.acts (g.get ⟨i - 1, hlt⟩)) ≠ .timeout := by
        rw [hf1]; simp
      have hne2 : run g f2 (bump (pushTrace c)) .loop ≠ .timeout := by
        rw [hf2]; simp
      refine ⟨max f1 f2 + 1, ?_⟩
      rw [run_loop_enter g (max f1 f2) c (by omega)]
      rw [hpred]
      simp only [hget]
      rw [run_mono g (Nat.le_max_left f1 f2) hne1]
      simp only [hf1]
      rw [run_mono g (Nat.le_max_right f1 f2) hne2, hf2]
      rw [hrange]
      simp [bump, pushTrace, hc]
    | succ n =>
      have hcnt1 : 1 ≤ countNext (g.get ⟨i - 1, hlt⟩) := by omega
      obtain ⟨f1, hf1⟩ := run_acts_abortVia g k _ hna hcnt1 i (pushTrace c) hptidx
        (by omega)
        (fun c2 hc2 => ih (i + 1) (by omega) (by omega) (by omega) c2 hc2)
      refine ⟨f1 + 1, ?_⟩
      rw [run_loop_enter g f1 c (by omega)]
      rw [hpred]
      simp only [hget]
      simp only [hf1]
      rw [hrange]
      simp [pushTrace, hc]

end Chain

/-- Claim C1, counterexample: in the chain `gEx1` the handler at position
`k = 1` calls `Abort()`; the second handler is indeed never invoked (the
trace is `[1]`), but `AbortWith` records `abortIndex = index - 1 = 0`, the
not-aborted sentinel, so `IsAborted()` returns `false` and `AbortHandler()`
returns `nil` — contradicting the claim that `IsAborted()` becomes true and
`AbortHandler()` returns the handler at position `k` for every `k`. -/
theorem C1_counterexample :
    Chain.start gEx1 10 ⟨0, 0, 0, []⟩ = .ok ⟨1, 0, 1, [1]⟩ ∧
    Chain.IsAborted ⟨1, 0, 1, [1]⟩ = false ∧
    Chain.AbortHandler gEx1 ⟨1, 0, 1, [1]⟩ = none ∧
    gEx1.getD 0 [] ≠ ([] : Chain.Handler) := by
  refine ⟨by decide, by decide, by decide, by decide⟩

/-- Claim C1 (amended): if the handler at position `k` calls `Abort()`
before any re-entrant `Next()` call of its own, and the handlers before it
do not abort, then handlers `k+1..N` are never invoked in the main pass
(the trace is exactly `[1..k]`) and the abort position records `k - 1`;
when `k ≥ 2` this makes `IsAborted()` return true and `AbortHandler()`
return the handler at position `k` (for `k = 1` the recorded position `0`
collides with the not-aborted sentinel, see the counterexample). -/
theorem C1_abort_skips_rest (g : Chain.Group) (k : Nat)
    (Hk2 : 2 ≤ k) (HkB : k ≤ g.length) (Hlen : g.length ≤ 255)
    (Hpre : ∀ j, j < k - 1 → Chain.noAbort (g.getD j []) = true)
    (Habort : Chain.abortsFirst (g.getD (k - 1) []) = true) :
    ∃ f c', Chain.start g f ⟨0, 0, 0, []⟩ = .ok c' ∧
      c'.trace = List.range' 1 k ∧
      c'.abortIndex = k - 1 ∧
      Chain.IsAborted c' = true ∧
      Chain.AbortHandler g c' = some (g.getD (k - 1) []) := by
  have hu8 : Chain.u8 g.length = g.length := Chain.u8_eq_of_le _ Hlen
  obtain ⟨f, hf⟩ := Chain.run_loop_abort g k (by omega) Hpre Habort 1 (by omega)
    (by omega) ⟨1, 0, 0, []⟩ rfl
  have hpred : Chain.u8 (k + 255) = k - 1 := Chain.u8_pred k (by omega) (by omega)
  have hNext : Chain.Next g f ⟨0, 0, 0, []⟩ =
      .abortPanic ⟨k, k - 1, 1, List.range' 1 (k + 1 - 1)⟩ := by
    show Chain.run g f (Chain.bump ⟨0, 0, 0, []⟩) .loop = _
    have hb : Chain.bump ⟨0, 0, 0, []⟩ = (⟨1, 0, 0, []⟩ : Chain.Ctx) := rfl
    rw [hb, hf, hpred]
    rfl
  refine ⟨f, ⟨k, k - 1, 1, List.range' 1 (k + 1 - 1)⟩, ?_, ?_, rfl, ?_, ?_⟩
  · unfold Chain.start
    rw [hNext]
  · show List.range' 1 (k + 1 - 1) = List.range' 1 k
    have : k + 1 - 1 = k := by omega
    rw [this]
  · show ((k - 1 : Nat) != 0) = true
    simp
    omega
  · show Chain.AbortHandler g ⟨k, k - 1, 1, List.range' 1 (k + 1 - 1)⟩ = _
    unfold Chain.AbortHandler
    have hne : ¬ (k - 1 = 0) := by omega
    rw [if_neg hne]
    have hlt : k - 1 < g.length := by omega
    rw [List.get?_eq_get hlt, List.getD_eq_get g [] hlt]

/-- Witness for claim C1's amended theorem: the chain `gEx1w` whose second
handler aborts. -/
theorem C1_abort_skips_rest_witness :
    ∃ f c', Chain.start gEx1w f ⟨0, 0, 0, []⟩ = .ok c' ∧
      c'.trace = List.range' 1 2 ∧
      c'.abortIndex = 2 - 1 ∧
      Chain.IsAborted c' = true ∧
      Chain.AbortHandler gEx1w c' = some (gEx1w.getD (2 - 1) []) :=
  C1_abort_skips_rest gEx1w 2 (by decide) (by decide) (by decide)
    (by decide) (by decide)

/-- Claim C4, counterexample: for the chain `gEx4c` of length `N = 1` whose
single handler re-entrantly calls `Next()` (and nobody aborts), the handler
is invoked exactly once but after the top-level `Next()` returns the cursor
is `3`, not `N + 1 = 2`: each `Next()` call performs its own increment, so
re-entrant calls push the final cursor past `N + 1`. -/
theorem C4_counterexample :
    Chain.Next gEx4c 10 ⟨0, 0, 0, []⟩ = .ok ⟨3, 0, 0, [1]⟩ ∧
    gEx4c.length + 1 ≠ 3 := by
  refine ⟨by decide, by decide⟩

/-- Claim C4 (amended): for every chain of length `N ≤ 254` in which no
handler aborts (and the total number `r` of re-entrant `Next()` calls keeps
the `uint8` cursor from wrapping), one top-level `Next()` invokes each of
the `N` handlers exactly once, in chain order — also when handlers
re-entrantly call `Next()` — and the final cursor is `N + 1 + r`, which is
`N + 1` exactly when no handler re-entrantly calls `Next()`. -/
theorem C4_next_all_in_order (g : Chain.Group)
    (HB : g.length ≤ 254)
    (Hall : ∀ j, j < g.length → Chain.noAbort (g.getD j []) = true)
    (Hbound : g.length + 1 + Chain.sumNextFrom g 1 ≤ 255) :
    ∃ f c', Chain.Next g f ⟨0, 0, 0, []⟩ = .ok c' ∧
      c'.trace = List.range' 1 g.length ∧
      c'.index = g.length + 1 + Chain.sumNextFrom g 1 ∧
      (Chain.sumNextFrom g 1 = 0 → c'.index = g.length + 1) := by
  have hu8 : Chain.u8 g.length = g.length := Chain.u8_eq_of_le _ (by omega)
  obtain ⟨f, hf⟩ := Chain.run_loop_ok g (by rw [hu8]; exact Hall) (by rw [hu8]; omega)
    1 (by omega) (by omega) ⟨1, 0, 0, []⟩ rfl
  refine ⟨f, ⟨Chain.u8 g.length + 1 + Chain.sumNextFrom g 1, 0, 0,
    List.range' 1 (Chain.u8 g.length + 1 - 1)⟩, ?_, ?_, ?_, ?_⟩
  · show Chain.run g f ⟨1, 0, 0, []⟩ .loop = _
    exact hf
  · show List.range' 1 (Chain.u8 g.length + 1 - 1) = List.range' 1 g.length
    rw [hu8]
    simp
  · show Chain.u8 g.length + 1 + Chain.sumNextFrom g 1 = _
    rw [hu8]
  · intro h0
    show Chain.u8 g.length + 1 + Chain.sumNextFrom g 1 = _
    rw [hu8, h0]

/-- Witness for claim C4's amended theorem: a two-handler chain whose second
handler re-entrantly calls `Next()`. -/
theorem C4_next_all_in_order_witness :
    ∃ f c', Chain.Next gEx4w f ⟨0, 0, 0, []⟩ = .ok c' ∧
      c'.trace = List.range' 1 gEx4w.length ∧
      c'.index = gEx4w.length + 1 + Chain.sumNextFrom gEx4w 1 ∧
      (Chain.sumNextFrom gEx4w 1 = 0 → c'.index = gEx4w.length + 1) :=
  C4_next_all_in_order gEx4w (by decide) (by decide) (by decide)

/-- Claim C7: over a complete request run (`start` returning normally,
abort or no abort, arbitrary handler bodies), the abort position field is
assigned at most once — the ghost counter `abortWrites` counts every
assignment `AbortWith` makes — and if its value changed at all, it was
assigned exactly once.  The single assignment is immediately followed by
the panic that unwinds the rest of the request, so nothing can overwrite
it before `reset`. -/
theorem C7_abort_index_set_at_most_once (g : Chain.Group) (f : Nat)
    (c c' : Chain.Ctx) (h0 : c.abortWrites = 0)
    (hrun : Chain.start g f c = .ok c') :
    c'.abortWrites ≤ 1 ∧ (c'.abortIndex ≠ c.abortIndex → c'.abortWrites = 1) := by
  unfold Chain.start at hrun
  cases hres : Chain.Next g f c with
  | ok c2 =>
    rw [hres] at hrun
    have hinj : c2 = c' := by injection hrun
    subst hinj
    have hinv := (Chain.run_abort_inv g f (Chain.bump c) .loop).1 c2 hres
    simp [Chain.bump] at hinv
    constructor
    · omega
    · intro hne
      exact absurd hinv.1 hne
  | abortPanic c2 =>
    rw [hres] at hrun
    have hinj : c2 = c' := by injection hrun
    subst hinj
    have hinv := (Chain.run_abort_inv g f (Chain.bump c) .loop).2.1 c2 hres
    simp [Chain.bump] at hinv
    constructor
    · omega
    · intro _
      omega
  | crash c2 => rw [hres] at hrun; cases hrun
  | timeout => rw [hres] at hrun; cases hrun

/-- Witness for claim C7's theorem: a one-handler chain that aborts. -/
theorem C7_abort_index_set_at_most_once_witness :
    (⟨1, 0, 1, [1]⟩ : Chain.Ctx).abortWrites ≤ 1 ∧
    ((⟨1, 0, 1, [1]⟩ : Chain.Ctx).abortIndex ≠ (⟨0, 0, 0, []⟩ : Chain.Ctx).abortIndex →
      (⟨1, 0, 1, [1]⟩ : Chain.Ctx).abortWrites = 1) :=
  C7_abort_index_set_at_most_once [[Chain.Act.abortA]] 10 ⟨0, 0, 0, []⟩
    ⟨1, 0, 1, [1]⟩ rfl (by decide)

/-- Claim C10: `index` and `abortIndex` are 8-bit, and `Next()` compares
the cursor against `uint8(len(group))`.  For a chain of length `L ≥ 256`
(with `L % 256 ≤ 254` and no aborts), one top-level `Next()` invokes only
the handlers at positions `1 .. L % 256` — zero handlers when `L % 256 = 0`,
e.g. `L = 256` — rather than all `L` of them. -/
theorem C10_uint8_truncation (g : Chain.Group)
    (Hlen : 256 ≤ g.length)
    (HB : g.length % 256 ≤ 254)
    (Hall : ∀ j, j < g.length % 256 → Chain.noAbort (g.getD j []) = true)
    (Hbound : g.length % 256 + 1 + Chain.sumNextFrom g 1 ≤ 255) :
    ∃ f c', Chain.Next g f ⟨0, 0, 0, []⟩ = .ok c' ∧
      c'.trace = List.range' 1 (g.length % 256) ∧
      g.length % 256 < g.length := by
  have hu8 : Chain.u8 g.length = g.length % 256 := rfl
  obtain ⟨f, hf⟩ := Chain.run_loop_ok g (by rw [hu8]; exact Hall) (by rw [hu8]; omega)
    1 (by omega) (by omega) ⟨1, 0, 0, []⟩ rfl
  refine ⟨f, ⟨Chain.u8 g.length + 1 + Chain.sumNextFrom g 1, 0, 0,
    List.range' 1 (Chain.u8 g.length + 1 - 1)⟩, ?_, ?_, by omega⟩
  · show Chain.run g f ⟨1, 0, 0, []⟩ .loop = _
    exact hf
  · show List.range' 1 (Chain.u8 g.length + 1 - 1) = _
    rw [hu8]
    simp

set_option maxRecDepth 4000 in
/-- Witness for claim C10's theorem: a chain of exactly 256 empty handlers;
`uint8(256) = 0`, so `Next()` invokes none of them. -/
theorem C10_uint8_truncation_witness :
    ∃ f c', Chain.Next gEx10 f ⟨0, 0, 0, []⟩ = .ok c' ∧
      c'.trace = List.range' 1 (gEx10.length % 256) ∧
      gEx10.length % 256 < gEx10.length :=
  C10_uint8_truncation gEx10 (by decide) (by decide) (by decide) (by decide)

/-- Claim C5: `Parsers.Parse` tries match predicates in list order, the
first parser whose predicate holds has its decode invoked and its result
(success or error) returned immediately — later parsers are never
consulted — and if no predicate holds the sentinel `ParseError` is
returned. -/
theorem C5_parse_first_match :
    (∀ (ps1 ps2 : Dispatch.Parsers) (p : Dispatch.Parser) (r : Dispatch.Req)
        (v : Nat),
      (∀ q ∈ ps1, q.Match r = false) → p.Match r = true →
      Dispatch.Parsers.Parse (ps1 ++ p :: ps2) r v = p.Parse r v) ∧
    (∀ (ps : Dispatch.Parsers) (r : Dispatch.Req) (v : Nat),
      (∀ q ∈ ps, q.Match r = false) →
      Dispatch.Parsers.Parse ps r v = some .ParseError) := by
  constructor
  · intro ps1
    induction ps1 with
    | nil =>
      intro ps2 p r v _ hp
      show Dispatch.Parsers.Parse (p :: ps2) r v = _
      unfold Dispatch.Parsers.Parse
      rw [hp]
    | cons q rest ih =>
      intro ps2 p r v hnone hp
      have hq : q.Match r = false := hnone q (by simp)
      show Dispatch.Parsers.Parse (q :: (rest ++ p :: ps2)) r v = _
      unfold Dispatch.Parsers.Parse
      rw [hq]
      exact ih ps2 p r v (fun q2 hq2 => hnone q2 (by simp [hq2])) hp
  · intro ps
    induction ps with
    | nil => intro r v _; rfl
    | cons q rest ih =>
      intro r v hnone
      have hq : q.Match r = false := hnone q (by simp)
      unfold Dispatch.Parsers.Parse
      rw [hq]
      exact ih r v (fun q2 hq2 => hnone q2 (by simp [hq2]))

/-- Witness for claim C5's theorem: with a non-matching parser ahead of a
matching one, dispatch returns the matching parser's decode result and
ignores the parser behind it; with only non-matching parsers, dispatch
returns `ParseError`. -/
theorem C5_parse_first_match_witness :
    Dispatch.Parsers.Parse [pNever, pJson, pAny] rqJson 0 = pJson.Parse rqJson 0 ∧
    Dispatch.Parsers.Parse [pNever] rqText 0 = some .ParseError := by
  constructor
  · exact C5_parse_first_match.1 [pNever] [pAny] pJson rqJson 0
      (by intro q hq; simp only [List.mem_singleton] at hq; subst hq; rfl) rfl
  · exact C5_parse_first_match.2 [pNever] rqText 0
      (by intro q hq; simp only [List.mem_singleton] at hq; subst hq; rfl)

/-- Claim C6: `Data` dispatches over the engine's default parser list
exactly when no list was configured for this request (and over the
request's own list otherwise); a decode error is returned as is without the
validator being consulted (the result is the same under every validator),
and only on decode success does the validator run, its result being
returned. -/
theorem C6_data_defaults_then_validate :
    (∀ (c : Dispatch.DCtx) (v : Nat), c.parsers = none →
      (Dispatch.Data c v).2 =
        (match Dispatch.Parsers.Parse c.engineParsers c.req v with
          | some e => some e
          | none => c.Validator v)) ∧
    (∀ (c : Dispatch.DCtx) (v : Nat) (ps : Dispatch.Parsers),
      c.parsers = some ps →
      (Dispatch.Data c v).2 =
        (match Dispatch.Parsers.Parse ps c.req v with
          | some e => some e
          | none => c.Validator v)) ∧
    (∀ (c : Dispatch.DCtx) (v : Nat) (e : Dispatch.Err)
        (val : Nat → Option Dispatch.Err),
      Dispatch.Parsers.Parse (Dispatch.effParsers c) c.req v = some e →
      (Dispatch.Data { c with Validator := val } v).2 = some e) ∧
    (∀ (c : Dispatch.DCtx) (v : Nat),
      Dispatch.Parsers.Parse (Dispatch.effParsers c) c.req v = none →
      (Dispatch.Data c v).2 = c.Validator v) := by
  refine ⟨?_, ?_, ?_, ?_⟩
  · intro c v hnone
    unfold Dispatch.Data Dispatch.effParsers
    rw [hnone]
    cases hres : Dispatch.Parsers.Parse c.engineParsers c.req v <;> simp [hres]
  · intro c v ps hsome
    unfold Dispatch.Data Dispatch.effParsers
    rw [hsome]
    cases hres : Dispatch.Parsers.Parse ps c.req v <;> simp [hres]
  · intro c v e val herr
    have heff : Dispatch.effParsers { c with Validator := val } =
        Dispatch.effParsers c := rfl
    unfold Dispatch.Data
    simp only [heff, herr]
  · intro c v hok
    unfold Dispatch.Data
    simp only [hok]

/-- Witness for claim C6's theorem, on concrete contexts: the default list
is used when none is configured, the configured list is used otherwise, a
decode error short-circuits every validator, and on decode success the
validator's verdict is returned. -/
theorem C6_data_defaults_then_validate_witness :
    (Dispatch.Data dEx 0).2 =
      (match Dispatch.Parsers.Parse dEx.engineParsers dEx.req 0 with
        | some e => some e
        | none => dEx.Validator 0) ∧
    (Dispatch.Data dExSome 0).2 =
      (match Dispatch.Parsers.Parse [pAny] dExSome.req 0 with
        | some e => some e
        | none => dExSome.Validator 0) ∧
    (Dispatch.Data { dExText with Validator := fun _ => some (.validateErr 3) } 0).2 =
      some Dispatch.Err.ParseError ∧
    (Dispatch.Data dEx 1).2 = dEx.Validator 1 := by
  refine ⟨?_, ?_, ?_, ?_⟩
  · exact C6_data_defaults_then_validate.1 dEx 0 rfl
  · exact C6_data_defaults_then_validate.2.1 dExSome 0 [pAny] rfl
  · exact C6_data_defaults_then_validate.2.2.1 dExText 0 Dispatch.Err.ParseError
      (fun _ => some (.validateErr 3)) rfl
  · exact C6_data_defaults_then_validate.2.2.2 dEx 1 rfl

/-- Claim C3, counterexample: with no list configured, the engine default
alone would decode this request successfully, but after `AddParser(pNever)`
the added parser becomes the entire request list — `Data` no longer falls
back to the defaults at all (`c.parsers != nil`), so instead of the added
parser sitting ahead of the default list, dispatch fails with `ParseError`
while the default list would have succeeded. -/
theorem C3_counterexample :
    (Dispatch.Data (Dispatch.AddParser dC3 [pNever]) 0).2 =
      some Dispatch.Err.ParseError ∧
    (Dispatch.Data dC3 0).2 = none := ⟨rfl, rfl⟩

/-- Claim C3 (amended): `AddParser` appends the given parsers to this
request's own parser list and never touches the engine-wide state (the
default list and the rest of the context are unchanged); if no list was
configured yet, the added parsers become the request's entire list — so
`Data` will not consult the process-wide defaults at all — and if a list
was already configured (e.g. the defaults installed by an earlier `Data`
call), the added parsers are appended after it. -/
theorem C3_addparser_request_local (c : Dispatch.DCtx) (new : List Dispatch.Parser) :
    (Dispatch.AddParser c new).engineParsers = c.engineParsers ∧
    (Dispatch.AddParser c new).req = c.req ∧
    (c.parsers = none → new ≠ [] →
      Dispatch.effParsers (Dispatch.AddParser c new) = new) ∧
    (∀ xs, c.parsers = some xs →
      Dispatch.effParsers (Dispatch.AddParser c new) = xs ++ new) := by
  refine ⟨rfl, rfl, ?_, ?_⟩
  · intro hnone hne
    unfold Dispatch.effParsers Dispatch.AddParser
    rw [hnone]
    match new, hne with
    | p :: rest, _ => rfl
  · intro xs hsome
    unfold Dispatch.effParsers Dispatch.AddParser
    rw [hsome]
    simp [Dispatch.goAppend]

/-- Witness for claim C3's amended theorem, on `dC3` (no list configured)
and `dExSome` (a list configured). -/
theorem C3_addparser_request_local_witness :
    (Dispatch.AddParser dC3 [pNever]).engineParsers = dC3.engineParsers ∧
    Dispatch.effParsers (Dispatch.AddParser dC3 [pNever]) = [pNever] ∧
    Dispatch.effParsers (Dispatch.AddParser dExSome [pNever]) = [pAny] ++ [pNever] := by
  refine ⟨?_, ?_, ?_⟩
  · exact (C3_addparser_request_local dC3 [pNever]).1
  · exact (C3_addparser_request_local dC3 [pNever]).2.2.1 rfl (by simp)
  · exact (C3_addparser_request_local dExSome [pNever]).2.2.2 [pAny] rfl

/-- Claim C2: `reset` does clear the cursor, the parser list, the matched
flag, both caches and the auxiliary mapping — but it never clears
`abortIndex`, so a state released to the pool after an abort at position 2
and reacquired for a new request still carries `abortIndex = 1` and reports
`IsAborted() = true` before anything aborted: the claim's "abort position
reset to 0" is violated by the code. -/
theorem C2_reset_leaves_abortIndex :
    (Pool.reset dirtyCtx).index = 0 ∧
    (Pool.reset dirtyCtx).parsers = none ∧
    (Pool.reset dirtyCtx).matched = false ∧
    (Pool.reset dirtyCtx).queryCache = none ∧
    (Pool.reset dirtyCtx).formCache = none ∧
    (Pool.reset dirtyCtx).contextValue = none ∧
    (Pool.reset dirtyCtx).abortIndex = 1 ∧
    Pool.IsAborted (Pool.reset dirtyCtx) = true :=
  ⟨rfl, rfl, rfl, rfl, rfl, rfl, rfl, rfl⟩

/-- Claim C8: the top-of-request fault catcher is selective — the
distinguished `Exit` signal is consumed and its `Exit` behaviour invoked
with the state, every other unwound value is re-raised unchanged (never
swallowed), and with no panic nothing happens. -/
theorem C8_recover_selective {St : Type} (c : St) (f : St → St) (v : Nat) :
    Recov.recoverFn c (some (.exitSig f)) = .consumed (f c) ∧
    Recov.recoverFn c (some (.otherVal v)) = .repanicked (.otherVal v) ∧
    Recov.recoverFn c none = .noPanic c :=
  ⟨rfl, rfl, rfl⟩

/-- Claim C9: `Query()` is memoized per request — a first call on an empty
cache parses the raw query string, and a second call returns the identical
cached value even if the raw query string was mutated in between. -/
theorem C9_query_memoized (parse : String → QueryM.QV) (c : QueryM.QCtx)
    (raw2 : String) :
    (c.queryCache = none → (QueryM.Query parse c).1 = parse c.rawQuery) ∧
    (QueryM.Query parse
      (QueryM.setRawQuery (QueryM.Query parse c).2 raw2)).1 =
      (QueryM.Query parse c).1 := by
  constructor
  · intro hnone
    unfold QueryM.Query
    rw [hnone]
  · cases hq : c.queryCache with
    | none => simp [QueryM.Query, QueryM.setRawQuery, hq]
    | some qv => simp [QueryM.Query, QueryM.setRawQuery, hq]

/-- Witness for claim C9's theorem: first call parses `"a=1"`; mutating the
raw query to `"b=2"` between calls does not change what the second call
returns. -/
theorem C9_query_memoized_witness :
    (QueryM.Query parseEx ⟨"a=1", none⟩).1 = parseEx "a=1" ∧
    (QueryM.Query parseEx
      (QueryM.setRawQuery (QueryM.Query parseEx ⟨"a=1", none⟩).2 "b=2")).1 =
      (QueryM.Query parseEx ⟨"a=1", none⟩).1 :=
  ⟨(C9_query_memoized parseEx ⟨"a=1", none⟩ "b=2").1 rfl,
   (C9_query_memoized parseEx ⟨"a=1", none⟩ "b=2").2⟩

end Regia
